import Mathlib

/-!
A shallow embedding of the dialogue-graph compiler of `bevy_screenplay`
(`src/conversation.rs`, `Conversation::new` and `Conversation::current_text`),
together with proofs of the specified properties.

Modelling choices:
* Rust `i32` ids are modelled as `Int`; ids are only ever compared for
  equality, so no wrap-around arithmetic is involved.
* `petgraph::DiGraph` is modelled as the list of nodes in insertion order
  (a node's index is its position) together with the list of edges in
  insertion order, an edge being a source/target pair of node indices.
  `add_node` appends and returns the previous length, exactly as petgraph
  assigns indices.
* `bevy::utils::HashMap<String, Talker>` built by `collect` is modelled by
  `talkerLookup`, which returns the last talker with a given name (later
  inserts overwrite earlier ones).
* `nodeidx_dialogue_map` is modelled as an association list in insertion
  order.  The Rust edge loop iterates the map in hasher order (a fixed-seed
  hasher, hence deterministic); the model iterates in insertion order.  On
  success the produced edge multiset is independent of that order, and the
  error claims below are stated existentially so that they hold for either
  order.
* The `first_line.unwrap()` call is modelled by returning `none` of an outer
  `Option` on the (unreachable) panicking path, so that `Conversation.new`
  returns `Option (Except ConversationError Conversation)`:
  `none` = panic, `some (.error e)` = `Err(e)`, `some (.ok c)` = `Ok(c)`.
-/

set_option autoImplicit false

namespace Screenplay

/-- Rust struct `Choice` (fields `text`, `next`) as used in `conversation.rs`. -/
structure Choice where
  text : String
  next : Int
deriving DecidableEq, Repr

/-- Rust struct `Talker` (fields `name`, `asset`) as used in `conversation.rs`. -/
structure Talker where
  name : String
  asset : String
deriving DecidableEq, Repr

/-- Rust struct `DialogueLine` as used in `conversation.rs` (all optional fields kept). -/
structure DialogueLine where
  id : Int
  text : String
  talker : Option String
  choices : Option (List Choice)
  next : Option Int
  start : Option Bool
  «end» : Option Bool
deriving DecidableEq, Repr

/-- Rust struct `RawTalk` (fields `talkers`, `lines`). -/
structure RawTalk where
  talkers : List Talker
  lines : List DialogueLine
deriving DecidableEq, Repr

/-- Rust enum `ConversationError` from `conversation.rs`. -/
inductive ConversationError where
  | NoLines
  | TalkerNotFound (lineId : Int) (name : String)
  | NextLineNotFound (lineId : Int) (target : Int)
  | RepeatedId (lineId : Int)
  | NoStartingDialogue
  | MultipleStartingDialogues
deriving DecidableEq, Repr

/-- Rust struct `DialogueNode` (fields `text`, `talker`, `choices`). -/
structure DialogueNode where
  text : String
  talker : Option Talker
  choices : Option (List Choice)
deriving DecidableEq, Repr

/-- Rust struct `DLineStripped` (fields `id`, `next`, `choices`). -/
structure DLineStripped where
  id : Int
  next : Option Int
  choices : Option (List Choice)
deriving DecidableEq, Repr

/-- The talker map built at lines 43-47 of `conversation.rs`:
`collect` on `(name, talker)` pairs lets later entries overwrite earlier
ones, so lookup returns the LAST talker in the list with the given name. -/
def talkerLookup : List Talker → String → Option Talker
  | [], _ => none
  | t :: ts, n =>
    match talkerLookup ts n with
    | some r => some r
    | none => if t.name = n then some t else none

/-- Association-list lookup, modelling `nodeidx_dialogue_map.get`. -/
def lookupId : List (Int × Nat × DLineStripped) → Int → Option (Nat × DLineStripped)
  | [], _ => none
  | (i, v) :: rest, k => if i = k then some v else lookupId rest k

/-- The projection of a `DialogueLine` stored in `nodeidx_dialogue_map`. -/
def strip (l : DialogueLine) : DLineStripped :=
  ⟨l.id, l.next, l.choices⟩

/-- The talker resolution of lines 61-70: a named talker must exist in the
talker map, otherwise `TalkerNotFound(line id, name)`. -/
def resolveTalker (ts : List Talker) (l : DialogueLine) :
    Except ConversationError (Option Talker) :=
  match l.talker with
  | some n =>
    match talkerLookup ts n with
    | none => .error (.TalkerNotFound l.id n)
    | some t => .ok (some t)
  | none => .ok none

/-- The start-flag check of lines 80-85: only `Some(true)` counts, and a
second start line is `MultipleStartingDialogues`. -/
def checkStart (first : Option Nat) (l : DialogueLine) (idx : Nat) :
    Except ConversationError (Option Nat) :=
  match l.start with
  | some true => if first.isSome then .error .MultipleStartingDialogues else .ok (some idx)
  | _ => .ok first

/-- The mutable state of the node-building loop (lines 40-96):
the recorded start index, the graph nodes so far, and the id map so far. -/
structure NodePhase where
  firstLine : Option Nat
  nodes : List DialogueNode
  dmap : List (Int × Nat × DLineStripped)
deriving DecidableEq, Repr

/-- The node-building loop of lines 58-96: for each line resolve the talker,
add the node, process the start flag, then record the id (failing with
`RepeatedId` if it is already present). -/
def addNodes (ts : List Talker) : List DialogueLine → NodePhase →
    Except ConversationError NodePhase
  | [], st => .ok st
  | l :: rest, st =>
    match resolveTalker ts l with
    | .error e => .error e
    | .ok talkerOpt =>
      let nodeIdx := st.nodes.length
      match checkStart st.firstLine l nodeIdx with
      | .error e => .error e
      | .ok first =>
        if (lookupId st.dmap l.id).isSome then .error (.RepeatedId l.id)
        else
          addNodes ts rest
            ⟨first, st.nodes ++ [⟨l.text, talkerOpt, l.choices⟩],
              st.dmap ++ [(l.id, nodeIdx, strip l)]⟩

/-- The inner choice loop of lines 129-139: for every choice whose target
resolves, an edge from the current node BACK TO ITSELF is added (the
self-loop quirk of line 131); an unresolvable target is
`NextLineNotFound(line id, choice target)`. -/
def choiceEdges (m : List (Int × Nat × DLineStripped)) (idx : Nat) (lineId : Int) :
    List Choice → Except ConversationError (List (Nat × Nat))
  | [] => .ok []
  | c :: cs =>
    match lookupId m c.next with
    | some _ =>
      match choiceEdges m idx lineId cs with
      | .error e => .error e
      | .ok es => .ok ((idx, idx) :: es)
    | none => .error (.NextLineNotFound lineId c.next)

/-- The edges contributed by one map entry (lines 116-140): `next` has
priority; when `next` is present a single edge to the target's node is
added, otherwise one self-loop per resolving choice. -/
def entryEdges (m : List (Int × Nat × DLineStripped)) (e : Int × Nat × DLineStripped) :
    Except ConversationError (List (Nat × Nat)) :=
  match e.2.2.next with
  | some nid =>
    match lookupId m nid with
    | some p => .ok [(e.2.1, p.1)]
    | none => .error (.NextLineNotFound e.2.2.id nid)
  | none =>
    match e.2.2.choices with
    | some cs => choiceEdges m e.2.1 e.2.2.id cs
    | none => .ok []

/-- The edge-building loop of lines 114-141. -/
def addEdges (m : List (Int × Nat × DLineStripped)) :
    List (Int × Nat × DLineStripped) → Except ConversationError (List (Nat × Nat))
  | [] => .ok []
  | e :: rest =>
    match entryEdges m e with
    | .error err => .error err
    | .ok es =>
      match addEdges m rest with
      | .error err => .error err
      | .ok es2 => .ok (es ++ es2)

/-- The compiled `Conversation`: graph nodes, graph edges, current cursor. -/
structure Conversation where
  nodes : List DialogueNode
  edges : List (Nat × Nat)
  current : Nat
deriving DecidableEq, Repr

/-- Rust function `Conversation::new` (lines 35-148).  The outer `Option` models the
`first_line.unwrap()` at line 146: `none` is the panicking path. -/
def Conversation.new (talk : RawTalk) :
    Option (Except ConversationError Conversation) :=
  if talk.lines.isEmpty then some (.error .NoLines)
  else
    match addNodes talk.talkers talk.lines ⟨none, [], []⟩ with
    | .error e => some (.error e)
    | .ok st =>
      if st.firstLine.isNone then some (.error .NoStartingDialogue)
      else
        match addEdges st.dmap st.dmap with
        | .error e => some (.error e)
        | .ok edges =>
          match st.firstLine with
          | none => none
          | some idx => some (.ok ⟨st.nodes, edges, idx⟩)

/-- Rust method `Conversation::current_text` (lines 150-152); `none` models the panic on
an out-of-bounds index. -/
def Conversation.current_text (c : Conversation) : Option String :=
  (c.nodes[c.current]?).map DialogueNode.text

/-! ### Helper definitions used to state and prove the specification -/

/-- The compiled node a line produces: text, resolved talker, choices. -/
def nodeOf (ts : List Talker) (l : DialogueLine) : DialogueNode :=
  ⟨l.text, l.talker.bind (talkerLookup ts), l.choices⟩

/-- The id map produced by the node phase when indices `d, d+1, ...` are
assigned to the lines in order. -/
def dmapOf : Nat → List DialogueLine → List (Int × Nat × DLineStripped)
  | _, [] => []
  | d, l :: ls => (l.id, d, strip l) :: dmapOf (d + 1) ls

/-- The index of the first line flagged `start: true`, counting from `d`. -/
def findStartIdx : Nat → List DialogueLine → Option Nat
  | _, [] => none
  | d, l :: ls => if l.start = some true then some d else findStartIdx (d + 1) ls

/-- How many lines are flagged `start: true`. -/
def countStart (ls : List DialogueLine) : Nat :=
  ls.countP (fun l => l.start == some true)

/-- The position of the first line with the given id. -/
def idxOfId : List DialogueLine → Int → Option Nat
  | [], _ => none
  | l :: ls, i => if l.id = i then some 0 else (idxOfId ls i).map (· + 1)

/-- Every talker named by a line exists in the talker map. -/
def talkersOk (ts : List Talker) (ls : List DialogueLine) : Prop :=
  ∀ l ∈ ls, ∀ n, l.talker = some n → (talkerLookup ts n).isSome

/-- A stripped line holds a dangling reference that the edge phase will
follow: its own `next`, or — only when `next` is absent — some choice's
target. -/
def activeDangling (m : List (Int × Nat × DLineStripped)) (d : DLineStripped) : Prop :=
  (∃ n, d.next = some n ∧ lookupId m n = none) ∨
  (d.next = none ∧ ∃ c ∈ d.choices.getD [], lookupId m c.next = none)

/-! ### Lookup lemmas -/

theorem lookupId_eq_none_iff (m : List (Int × Nat × DLineStripped)) (k : Int) :
    lookupId m k = none ↔ ∀ p ∈ m, p.1 ≠ k := by
  induction m with
  | nil => simp [lookupId]
  | cons p rest ih =>
    obtain ⟨i, v⟩ := p
    by_cases h : i = k <;> simp [lookupId, h, ih]

theorem lookupId_append_of_none (a b : List (Int × Nat × DLineStripped)) (k : Int)
    (h : lookupId a k = none) : lookupId (a ++ b) k = lookupId b k := by
  induction a with
  | nil => rfl
  | cons p rest ih =>
    obtain ⟨i, v⟩ := p
    by_cases hik : i = k
    · simp [lookupId, hik] at h
    · simp only [lookupId, hik, if_false] at h
      simp only [List.cons_append, lookupId, hik, if_false]
      exact ih h

theorem lookupId_append_of_some (a b : List (Int × Nat × DLineStripped)) (k : Int)
    (v : Nat × DLineStripped) (h : lookupId a k = some v) :
    lookupId (a ++ b) k = some v := by
  induction a with
  | nil => simp [lookupId] at h
  | cons p rest ih =>
    obtain ⟨i, w⟩ := p
    by_cases hik : i = k
    · simp only [lookupId, hik, if_true] at h ⊢
      exact h
    · simp only [lookupId, hik, if_false] at h ⊢
      exact ih h

theorem getLast?_cons_of_ne_nil {α : Type} (a : α) {l : List α} (h : l ≠ []) :
    (a :: l).getLast? = l.getLast? := by
  cases hl : l.getLast? with
  | none => exact absurd (List.getLast?_eq_none_iff.mp hl) h
  | some x => rw [List.getLast?_cons, hl]; rfl

/-- Lookup via `talkerLookup` returns the LAST talker in the list with the given
name. -/
theorem talkerLookup_eq_getLast (ts : List Talker) (n : String) :
    talkerLookup ts n = (ts.filter (fun t => t.name == n)).getLast? := by
  induction ts with
  | nil => rfl
  | cons t ts ih =>
    cases htl : talkerLookup ts n with
    | some r =>
      have hne : ts.filter (fun t => t.name == n) ≠ [] := by
        intro hemp
        rw [htl, hemp] at ih
        simp at ih
      by_cases h : t.name = n
      · simp only [talkerLookup, htl, List.filter_cons, h, beq_self_eq_true, if_true]
        rw [getLast?_cons_of_ne_nil _ hne, ← ih, htl]
      · simp only [talkerLookup, htl, List.filter_cons, beq_eq_false_iff_ne.mpr h,
          Bool.false_eq_true, if_false]
        rw [← ih, htl]
    | none =>
      have hemp : ts.filter (fun t => t.name == n) = [] := by
        rw [htl] at ih
        exact List.getLast?_eq_none_iff.mp ih.symm
      by_cases h : t.name = n
      · simp [talkerLookup, htl, List.filter_cons, h, hemp]
      · simp [talkerLookup, htl, List.filter_cons, beq_eq_false_iff_ne.mpr h, hemp, h]

theorem talkerLookup_isSome_iff (ts : List Talker) (n : String) :
    (talkerLookup ts n).isSome ↔ ∃ t ∈ ts, t.name = n := by
  rw [talkerLookup_eq_getLast]
  constructor
  · intro h
    rcases Option.isSome_iff_exists.mp h with ⟨t, ht⟩
    rcases List.mem_filter.mp (List.mem_of_mem_getLast? ht) with ⟨hmem, hp⟩
    exact ⟨t, hmem, by simpa using hp⟩
  · intro ⟨t, hmem, hn⟩
    rw [Option.isSome_iff_ne_none]
    intro hnone
    have := List.filter_eq_nil_iff.mp (List.getLast?_eq_none_iff.mp hnone) t hmem
    simp [hn] at this

/-! ### dmapOf and idxOfId lemmas -/

theorem idxOfId_lt_length (ls : List DialogueLine) (i : Int) (j : Nat)
    (h : idxOfId ls i = some j) : j < ls.length := by
  induction ls generalizing j with
  | nil => simp [idxOfId] at h
  | cons l ls ih =>
    by_cases hid : l.id = i
    · simp only [idxOfId, hid, if_true, Option.some_inj] at h
      simp [← h]
    · simp only [idxOfId, hid, if_false, Option.map_eq_some'] at h
      obtain ⟨j', hj', rfl⟩ := h
      have := ih j' hj'
      simp only [List.length_cons]
      omega

theorem lookupId_dmapOf (d : Nat) (ls : List DialogueLine) (i : Int) :
    lookupId (dmapOf d ls) i =
      (idxOfId ls i).bind (fun j => (ls[j]?).map (fun l => (d + j, strip l))) := by
  induction ls generalizing d with
  | nil => rfl
  | cons l ls ih =>
    by_cases hid : l.id = i
    · simp [dmapOf, lookupId, idxOfId, hid]
    · simp only [dmapOf, lookupId, idxOfId, hid, if_false, ih (d + 1)]
      cases hj : idxOfId ls i with
      | none => rfl
      | some j =>
        simp only [Option.map_some', Option.some_bind, List.getElem?_cons_succ]
        cases hl : ls[j]? with
        | none => rfl
        | some l' =>
          simp only [Option.map_some', Option.some_inj, Prod.mk.injEq]
          exact ⟨by omega, trivial⟩

theorem lookupId_dmapOf_eq_none_iff (ls : List DialogueLine) (i : Int) :
    lookupId (dmapOf 0 ls) i = none ↔ idxOfId ls i = none := by
  rw [lookupId_dmapOf]
  cases hj : idxOfId ls i with
  | none => simp
  | some j =>
    have hlt := idxOfId_lt_length ls i j hj
    simp [List.getElem?_eq_getElem hlt]

theorem dmapOf_mem_of_getElem? (d : Nat) (ls : List DialogueLine) (k : Nat)
    (l : DialogueLine) (h : ls[k]? = some l) : (l.id, d + k, strip l) ∈ dmapOf d ls := by
  induction ls generalizing d k with
  | nil => simp at h
  | cons l0 ls ih =>
    cases k with
    | zero =>
      simp only [List.getElem?_cons_zero, Option.some_inj] at h
      subst h
      simp [dmapOf]
    | succ k =>
      rw [List.getElem?_cons_succ] at h
      have heq : d + (k + 1) = (d + 1) + k := by omega
      rw [heq]
      exact List.mem_cons_of_mem _ (ih (d + 1) k h)

theorem mem_dmapOf (d : Nat) (ls : List DialogueLine)
    (e : Int × Nat × DLineStripped) (h : e ∈ dmapOf d ls) :
    ∃ k l, ls[k]? = some l ∧ e = (l.id, d + k, strip l) := by
  induction ls generalizing d with
  | nil => simp [dmapOf] at h
  | cons l0 ls ih =>
    simp only [dmapOf, List.mem_cons] at h
    rcases h with rfl | h
    · exact ⟨0, l0, by simp, by simp⟩
    · obtain ⟨k, l, hget, rfl⟩ := ih (d + 1) h
      refine ⟨k + 1, l, by simpa using hget, ?_⟩
      have heq : (d + 1) + k = d + (k + 1) := by omega
      rw [heq]

theorem dmapOf_idxs (d : Nat) (ls : List DialogueLine) :
    (dmapOf d ls).map (fun e => e.2.1) = List.range' d ls.length := by
  induction ls generalizing d with
  | nil => rfl
  | cons l ls ih => simp [dmapOf, List.range'_succ, ih (d + 1)]

theorem dmapOf_idxs_nodup (d : Nat) (ls : List DialogueLine) :
    ((dmapOf d ls).map (fun e => e.2.1)).Nodup := by
  rw [dmapOf_idxs]
  exact List.nodup_range' d ls.length

theorem idxOfId_of_getElem? (ls : List DialogueLine)
    (hnodup : (ls.map DialogueLine.id).Nodup) (k : Nat) (l : DialogueLine)
    (h : ls[k]? = some l) : idxOfId ls l.id = some k := by
  induction ls generalizing k with
  | nil => simp at h
  | cons l0 ls ih =>
    rw [List.map_cons, List.nodup_cons] at hnodup
    cases k with
    | zero =>
      simp only [List.getElem?_cons_zero, Option.some_inj] at h
      subst h
      simp [idxOfId]
    | succ k =>
      rw [List.getElem?_cons_succ] at h
      have hmem : l.id ∈ ls.map DialogueLine.id :=
        List.mem_map.mpr ⟨l, List.getElem?_mem h, rfl⟩
      have hne : l0.id ≠ l.id := fun he => hnodup.1 (he ▸ hmem)
      simp [idxOfId, hne, ih hnodup.2 k h]

/-! ### findStartIdx and countStart lemmas -/

theorem countStart_cons (l : DialogueLine) (ls : List DialogueLine) :
    countStart (l :: ls) = countStart ls + (if l.start = some true then 1 else 0) := by
  simp [countStart, List.countP_cons]

theorem findStartIdx_eq_none_iff (d : Nat) (ls : List DialogueLine) :
    findStartIdx d ls = none ↔ countStart ls = 0 := by
  induction ls generalizing d with
  | nil => simp [findStartIdx, countStart]
  | cons l ls ih =>
    by_cases h : l.start = some true
    · simp [findStartIdx, h, countStart_cons]
    · simp [findStartIdx, h, countStart_cons, ih (d + 1)]

theorem findStartIdx_isSome_of_pos (d : Nat) (ls : List DialogueLine)
    (h : 0 < countStart ls) : (findStartIdx d ls).isSome := by
  rw [Option.isSome_iff_ne_none]
  intro hnone
  rw [findStartIdx_eq_none_iff] at hnone
  omega

theorem findStartIdx_some (d : Nat) (ls : List DialogueLine) (j : Nat)
    (h : findStartIdx d ls = some j) :
    ∃ k l, j = d + k ∧ ls[k]? = some l ∧ l.start = some true := by
  induction ls generalizing d with
  | nil => simp [findStartIdx] at h
  | cons l ls ih =>
    by_cases hs : l.start = some true
    · simp only [findStartIdx, hs, if_true, Option.some_inj] at h
      exact ⟨0, l, by omega, by simp, hs⟩
    · simp only [findStartIdx, hs, if_false] at h
      obtain ⟨k, l', hk, hget, hstart⟩ := ih (d + 1) h
      exact ⟨k + 1, l', by omega, by simpa using hget, hstart⟩

theorem countStart_pos_of_getElem? (ls : List DialogueLine) (k : Nat)
    (l : DialogueLine) (hk : ls[k]? = some l) (hl : l.start = some true) :
    0 < countStart ls :=
  List.countP_pos_iff.mpr ⟨l, List.getElem?_mem hk, by simp [hl]⟩

theorem countStart_unique (ls : List DialogueLine) (h : countStart ls ≤ 1)
    (k k' : Nat) (l l' : DialogueLine)
    (hk : ls[k]? = some l) (hk' : ls[k']? = some l')
    (hl : l.start = some true) (hl' : l'.start = some true) : k = k' := by
  induction ls generalizing k k' with
  | nil => simp at hk
  | cons l0 ls ih =>
    rw [countStart_cons] at h
    cases k with
    | zero =>
      cases k' with
      | zero => rfl
      | succ k' =>
        simp only [List.getElem?_cons_zero, Option.some_inj] at hk
        rw [List.getElem?_cons_succ] at hk'
        rw [hk, hl] at h
        simp at h
        have := countStart_pos_of_getElem? ls k' l' hk' hl'
        omega
    | succ k =>
      rw [List.getElem?_cons_succ] at hk
      cases k' with
      | zero =>
        simp only [List.getElem?_cons_zero, Option.some_inj] at hk'
        rw [hk', hl'] at h
        simp at h
        have := countStart_pos_of_getElem? ls k l hk hl
        omega
      | succ k' =>
        have : countStart ls ≤ 1 := by omega
        rw [List.getElem?_cons_succ] at hk'
        rw [ih this k k' hk hk']

/-! ### addNodes lemmas -/

theorem resolveTalker_ok (ts : List Talker) (l : DialogueLine) (o : Option Talker)
    (h : resolveTalker ts l = .ok o) : o = l.talker.bind (talkerLookup ts) := by
  unfold resolveTalker at h
  split at h
  · rename_i n hl
    split at h
    · simp at h
    · rename_i t htl
      simp only [Except.ok.injEq] at h
      rw [hl, Option.some_bind, htl, ← h]
  · rename_i hl
    simp only [Except.ok.injEq] at h
    rw [hl, Option.none_bind, ← h]

theorem resolveTalker_complete (ts : List Talker) (l : DialogueLine)
    (h : ∀ n, l.talker = some n → (talkerLookup ts n).isSome) :
    resolveTalker ts l = .ok (l.talker.bind (talkerLookup ts)) := by
  unfold resolveTalker
  cases hl : l.talker with
  | none => rfl
  | some n =>
    have hs := h n hl
    cases htl : talkerLookup ts n with
    | none => rw [htl] at hs; simp at hs
    | some t => simp [htl]

theorem checkStart_ok (first : Option Nat) (l : DialogueLine) (idx : Nat)
    (o : Option Nat) (h : checkStart first l idx = .ok o) :
    (l.start = some true ∧ first = none ∧ o = some idx) ∨
    (l.start ≠ some true ∧ o = first) := by
  unfold checkStart at h
  cases hs : l.start with
  | none =>
    rw [hs] at h
    simp only [Except.ok.injEq] at h
    exact Or.inr ⟨by simp, h.symm⟩
  | some b =>
    cases b with
    | false =>
      rw [hs] at h
      simp only [Except.ok.injEq] at h
      exact Or.inr ⟨by simp, h.symm⟩
    | true =>
      rw [hs] at h
      cases hf : first with
      | some i => rw [hf] at h; simp at h
      | none =>
        rw [hf] at h
        simp only [Option.isSome_none, Bool.false_eq_true, if_false, Except.ok.injEq] at h
        exact Or.inl ⟨rfl, rfl, h.symm⟩

/-- Success of the node loop fully determines the final state and implies
the per-line validity conditions. -/
theorem addNodes_ok (ts : List Talker) (ls : List DialogueLine) :
    ∀ (st st' : NodePhase), addNodes ts ls st = .ok st' →
    st'.nodes = st.nodes ++ ls.map (nodeOf ts)
    ∧ st'.dmap = st.dmap ++ dmapOf st.nodes.length ls
    ∧ (∀ i, st.firstLine = some i → st'.firstLine = some i ∧ countStart ls = 0)
    ∧ (st.firstLine = none → countStart ls ≤ 1
        ∧ st'.firstLine = findStartIdx st.nodes.length ls)
    ∧ (ls.map DialogueLine.id).Nodup
    ∧ (∀ l ∈ ls, lookupId st.dmap l.id = none) := by
  induction ls with
  | nil =>
    intro st st' h
    simp only [addNodes, Except.ok.injEq] at h
    subst h
    refine ⟨by simp, by simp [dmapOf], ?_, ?_, by simp, by simp⟩
    · intro i hi
      exact ⟨hi, rfl⟩
    · intro hn
      exact ⟨by simp [countStart], by simp [findStartIdx, hn]⟩
  | cons l rest ih =>
    intro st st' h
    rw [addNodes] at h
    cases hres : resolveTalker ts l with
    | error e => rw [hres] at h; simp at h
    | ok talkerOpt =>
      rw [hres] at h
      simp only at h
      cases hcs : checkStart st.firstLine l st.nodes.length with
      | error e => rw [hcs] at h; simp at h
      | ok first =>
        rw [hcs] at h
        simp only at h
        cases hlk : (lookupId st.dmap l.id).isSome with
        | true => rw [hlk] at h; simp at h
        | false =>
          rw [hlk] at h
          simp only [Bool.false_eq_true, if_false] at h
          set st2 : NodePhase :=
            ⟨first, st.nodes ++ [⟨l.text, talkerOpt, l.choices⟩],
              st.dmap ++ [(l.id, st.nodes.length, strip l)]⟩ with hst2
          obtain ⟨hnodes, hdmap, hsome, hnone, hnodup, hfresh⟩ := ih st2 st' h
          have hlen2 : st2.nodes.length = st.nodes.length + 1 := by
            simp [hst2]
          have hnodeOf : (⟨l.text, talkerOpt, l.choices⟩ : DialogueNode) = nodeOf ts l := by
            rw [nodeOf, ← resolveTalker_ok ts l talkerOpt hres]
          have hlknone : lookupId st.dmap l.id = none := by
            cases hk : lookupId st.dmap l.id with
            | none => rfl
            | some v => rw [hk] at hlk; simp at hlk
          have hfresh' : ∀ x ∈ rest, lookupId st.dmap x.id = none := by
            intro x hx
            rw [lookupId_eq_none_iff]
            intro p hp
            have := hfresh x hx
            rw [lookupId_eq_none_iff] at this
            exact this p (by simp [hst2, List.mem_append]; exact Or.inl hp)
          have hlid_ne : ∀ x ∈ rest, l.id ≠ x.id := by
            intro x hx
            have := hfresh x hx
            rw [lookupId_eq_none_iff] at this
            exact this (l.id, st.nodes.length, strip l)
              (by simp [hst2, List.mem_append])
          refine ⟨?_, ?_, ?_, ?_, ?_, ?_⟩
          · rw [hnodes, hst2]
            simp [hnodeOf]
          · rw [hdmap, hst2, hlen2]
            simp [dmapOf, hst2]
          · intro i hi
            rcases checkStart_ok st.firstLine l st.nodes.length first hcs with
              ⟨_, hfn, _⟩ | ⟨hns, hfe⟩
            · rw [hi] at hfn; cases hfn
            · have hst2first : st2.firstLine = some i := by
                rw [hst2]; simp [hfe, hi]
              obtain ⟨h1, h2⟩ := hsome i hst2first
              refine ⟨h1, ?_⟩
              rw [countStart_cons, h2, if_neg hns]
          · intro hn
            rcases checkStart_ok st.firstLine l st.nodes.length first hcs with
              ⟨hst, _, hfo⟩ | ⟨hns, hfe⟩
            · have hst2first : st2.firstLine = some st.nodes.length := by
                rw [hst2]; simp [hfo]
              obtain ⟨h1, h2⟩ := hsome st.nodes.length hst2first
              constructor
              · rw [countStart_cons, h2, if_pos hst]
              · rw [findStartIdx, if_pos hst, h1]
            · have hst2first : st2.firstLine = none := by
                rw [hst2]; simp [hfe, hn]
              obtain ⟨h1, h2⟩ := hnone hst2first
              constructor
              · rw [countStart_cons, if_neg hns]; omega
              · rw [findStartIdx, if_neg hns, h2, hlen2]
          · rw [List.map_cons, List.nodup_cons]
            constructor
            · intro hmem
              rcases List.mem_map.mp hmem with ⟨x, hx, hid⟩
              exact hlid_ne x hx hid.symm
            · exact hnodup
          · intro x hx
            rcases List.mem_cons.mp hx with rfl | hx'
            · exact hlknone
            · exact hfresh' x hx'

/-- If every line's talker resolves, ids are fresh, and the start flags are
consistent with the already-recorded start, the node loop succeeds. -/
theorem addNodes_complete (ts : List Talker) (ls : List DialogueLine) :
    ∀ (st : NodePhase),
    talkersOk ts ls →
    (ls.map DialogueLine.id).Nodup →
    (∀ l ∈ ls, lookupId st.dmap l.id = none) →
    ((st.firstLine.isSome ∧ countStart ls = 0) ∨
      (st.firstLine = none ∧ countStart ls ≤ 1)) →
    ∃ st', addNodes ts ls st = .ok st' := by
  induction ls with
  | nil => exact fun st _ _ _ _ => ⟨st, rfl⟩
  | cons l rest ih =>
    intro st htalk hnodup hfresh hstart
    rw [List.map_cons, List.nodup_cons] at hnodup
    have hres := resolveTalker_complete ts l (htalk l (List.mem_cons_self _ _))
    rw [addNodes, hres]
    simp only
    have hlknone : lookupId st.dmap l.id = none := hfresh l (List.mem_cons_self _ _)
    have hlk : (lookupId st.dmap l.id).isSome = false := by rw [hlknone]; rfl
    have hfresh2 : ∀ x ∈ rest,
        lookupId (st.dmap ++ [(l.id, st.nodes.length, strip l)]) x.id = none := by
      intro x hx
      rw [lookupId_eq_none_iff]
      intro p hp
      rcases List.mem_append.mp hp with hp' | hp'
      · have := hfresh x (List.mem_cons_of_mem _ hx)
        rw [lookupId_eq_none_iff] at this
        exact this p hp'
      · have hpe : p = (l.id, st.nodes.length, strip l) := by simpa using hp'
        rw [hpe]
        intro hcontra
        exact hnodup.1 (List.mem_map.mpr ⟨x, hx, hcontra.symm⟩)
    cases hs : l.start with
    | some b =>
      cases b with
      | true =>
        have hfn : st.firstLine = none := by
          rcases hstart with ⟨_, hcount⟩ | ⟨hfe, _⟩
          · rw [countStart_cons, hs] at hcount
            simp at hcount
          · exact hfe
        have hrest0 : countStart rest = 0 := by
          rcases hstart with ⟨_, hcount⟩ | ⟨_, hle⟩
          · rw [countStart_cons, hs] at hcount; simp at hcount
          · rw [countStart_cons, hs] at hle; simp at hle; omega
        rw [checkStart, hs, hfn]
        simp only [Option.isSome_none, Bool.false_eq_true, if_false, hlk]
        exact ih _ (fun x hx => htalk x (List.mem_cons_of_mem _ hx)) hnodup.2
          hfresh2
          (Or.inl ⟨by simp, hrest0⟩)
      | false =>
        have hrest : ((st.firstLine.isSome ∧ countStart rest = 0) ∨
            (st.firstLine = none ∧ countStart rest ≤ 1)) := by
          rcases hstart with ⟨hi, hcount⟩ | ⟨hfe, hle⟩
          · rw [countStart_cons, hs] at hcount; simp at hcount
            exact Or.inl ⟨hi, hcount⟩
          · rw [countStart_cons, hs] at hle; simp at hle
            exact Or.inr ⟨hfe, hle⟩
        rw [checkStart, hs]
        simp only [hlk, Bool.false_eq_true, if_false]
        exact ih _ (fun x hx => htalk x (List.mem_cons_of_mem _ hx)) hnodup.2
          hfresh2 hrest
    | none =>
      have hrest : ((st.firstLine.isSome ∧ countStart rest = 0) ∨
          (st.firstLine = none ∧ countStart rest ≤ 1)) := by
        rcases hstart with ⟨hi, hcount⟩ | ⟨hfe, hle⟩
        · rw [countStart_cons, hs] at hcount; simp at hcount
          exact Or.inl ⟨hi, hcount⟩
        · rw [countStart_cons, hs] at hle; simp at hle
          exact Or.inr ⟨hfe, hle⟩
      rw [checkStart, hs]
      simp only [hlk, Bool.false_eq_true, if_false]
      exact ih _ (fun x hx => htalk x (List.mem_cons_of_mem _ hx)) hnodup.2
        hfresh2 hrest

/-- With resolving talkers and fresh ids, a second `start: true` line makes
the node loop fail with `MultipleStartingDialogues`. -/
theorem addNodes_multiStart (ts : List Talker) (ls : List DialogueLine) :
    ∀ (st : NodePhase),
    talkersOk ts ls →
    (ls.map DialogueLine.id).Nodup →
    (∀ l ∈ ls, lookupId st.dmap l.id = none) →
    ((st.firstLine.isSome ∧ 1 ≤ countStart ls) ∨
      (st.firstLine = none ∧ 2 ≤ countStart ls)) →
    addNodes ts ls st = .error .MultipleStartingDialogues := by
  induction ls with
  | nil =>
    intro st _ _ _ hstart
    rcases hstart with ⟨_, hc⟩ | ⟨_, hc⟩ <;> simp [countStart] at hc
  | cons l rest ih =>
    intro st htalk hnodup hfresh hstart
    rw [List.map_cons, List.nodup_cons] at hnodup
    have hres := resolveTalker_complete ts l (htalk l (List.mem_cons_self _ _))
    rw [addNodes, hres]
    simp only
    have hlknone : lookupId st.dmap l.id = none := hfresh l (List.mem_cons_self _ _)
    have hlk : (lookupId st.dmap l.id).isSome = false := by rw [hlknone]; rfl
    have hfresh2 : ∀ x ∈ rest,
        lookupId (st.dmap ++ [(l.id, st.nodes.length, strip l)]) x.id = none := by
      intro x hx
      rw [lookupId_eq_none_iff]
      intro p hp
      rcases List.mem_append.mp hp with hp' | hp'
      · have := hfresh x (List.mem_cons_of_mem _ hx)
        rw [lookupId_eq_none_iff] at this
        exact this p hp'
      · have hpe : p = (l.id, st.nodes.length, strip l) := by simpa using hp'
        rw [hpe]
        intro hcontra
        exact hnodup.1 (List.mem_map.mpr ⟨x, hx, hcontra.symm⟩)
    have htalkrest : talkersOk ts rest := fun x hx => htalk x (List.mem_cons_of_mem _ hx)
    cases hs : l.start with
    | some b =>
      cases b with
      | true =>
        cases hf : st.firstLine with
        | some i =>
          rw [checkStart, hs]
          simp
        | none =>
          have hge : 2 ≤ countStart (l :: rest) := by
            rcases hstart with ⟨hi, _⟩ | ⟨_, h2⟩
            · rw [hf] at hi; simp at hi
            · exact h2
          rw [countStart_cons, hs] at hge
          simp at hge
          rw [checkStart, hs]
          simp only [Option.isSome_none, Bool.false_eq_true, if_false, hlk]
          exact ih _ htalkrest hnodup.2 hfresh2 (Or.inl ⟨by simp, by omega⟩)
      | false =>
        have hrest : ((st.firstLine.isSome ∧ 1 ≤ countStart rest) ∨
            (st.firstLine = none ∧ 2 ≤ countStart rest)) := by
          rcases hstart with ⟨hi, hc⟩ | ⟨hfe, hc⟩ <;>
            rw [countStart_cons, hs] at hc <;> simp at hc
          · exact Or.inl ⟨hi, hc⟩
          · exact Or.inr ⟨hfe, hc⟩
        rw [checkStart, hs]
        simp only [hlk, Bool.false_eq_true, if_false]
        exact ih _ htalkrest hnodup.2 hfresh2 hrest
    | none =>
      have hrest : ((st.firstLine.isSome ∧ 1 ≤ countStart rest) ∨
          (st.firstLine = none ∧ 2 ≤ countStart rest)) := by
        rcases hstart with ⟨hi, hc⟩ | ⟨hfe, hc⟩ <;>
          rw [countStart_cons, hs] at hc <;> simp at hc
        · exact Or.inl ⟨hi, hc⟩
        · exact Or.inr ⟨hfe, hc⟩
      rw [checkStart, hs]
      simp only [hlk, Bool.false_eq_true, if_false]
      exact ih _ htalkrest hnodup.2 hfresh2 hrest

/-- The node loop processes an appended list in two stages. -/
theorem addNodes_append (ts : List Talker) (as bs : List DialogueLine) :
    ∀ st, addNodes ts (as ++ bs) st =
      match addNodes ts as st with
      | .error e => .error e
      | .ok st' => addNodes ts bs st' := by
  induction as with
  | nil => intro st; rfl
  | cons l rest ih =>
    intro st
    rw [List.cons_append, addNodes, addNodes]
    cases hres : resolveTalker ts l with
    | error e => rfl
    | ok talkerOpt =>
      simp only
      cases hcs : checkStart st.firstLine l st.nodes.length with
      | error e => rfl
      | ok first =>
        simp only
        cases hlk : (lookupId st.dmap l.id).isSome with
        | true => simp
        | false =>
          simp only [Bool.false_eq_true, if_false]
          exact ih _

/-! ### Edge-phase lemmas -/

theorem choiceEdges_ok (m : List (Int × Nat × DLineStripped)) (idx : Nat) (lid : Int)
    (cs : List Choice) (es : List (Nat × Nat)) (h : choiceEdges m idx lid cs = .ok es) :
    es = cs.map (fun _ => (idx, idx)) ∧ ∀ c ∈ cs, (lookupId m c.next).isSome := by
  induction cs generalizing es with
  | nil =>
    simp only [choiceEdges, Except.ok.injEq] at h
    exact ⟨by simp [← h], by simp⟩
  | cons c cs ih =>
    rw [choiceEdges] at h
    cases hlk : lookupId m c.next with
    | none => rw [hlk] at h; simp at h
    | some p =>
      rw [hlk] at h
      simp only at h
      cases hrec : choiceEdges m idx lid cs with
      | error e => rw [hrec] at h; simp at h
      | ok es' =>
        rw [hrec] at h
        simp only [Except.ok.injEq] at h
        obtain ⟨h1, h2⟩ := ih es' hrec
        refine ⟨by rw [← h, h1]; simp, ?_⟩
        intro c' hc'
        rcases List.mem_cons.mp hc' with rfl | hc''
        · simp [hlk]
        · exact h2 c' hc''

theorem choiceEdges_complete (m : List (Int × Nat × DLineStripped)) (idx : Nat)
    (lid : Int) (cs : List Choice)
    (h : ∀ c ∈ cs, (lookupId m c.next).isSome) :
    choiceEdges m idx lid cs = .ok (cs.map (fun _ => (idx, idx))) := by
  induction cs with
  | nil => rfl
  | cons c cs ih =>
    have hc := h c (List.mem_cons_self _ _)
    rw [choiceEdges]
    cases hlk : lookupId m c.next with
    | none => rw [hlk] at hc; simp at hc
    | some p =>
      rw [ih (fun c' hc' => h c' (List.mem_cons_of_mem _ hc'))]
      simp

theorem choiceEdges_err (m : List (Int × Nat × DLineStripped)) (idx : Nat) (lid : Int)
    (cs : List Choice) (err : ConversationError)
    (h : choiceEdges m idx lid cs = .error err) :
    ∃ c ∈ cs, err = .NextLineNotFound lid c.next ∧ lookupId m c.next = none := by
  induction cs with
  | nil => simp [choiceEdges] at h
  | cons c cs ih =>
    rw [choiceEdges] at h
    cases hlk : lookupId m c.next with
    | none =>
      rw [hlk] at h
      simp only [Except.error.injEq] at h
      exact ⟨c, List.mem_cons_self _ _, h.symm, hlk⟩
    | some p =>
      rw [hlk] at h
      simp only at h
      cases hrec : choiceEdges m idx lid cs with
      | error e =>
        rw [hrec] at h
        simp only [Except.error.injEq] at h
        subst h
        obtain ⟨c', hc', he, hl⟩ := ih hrec
        exact ⟨c', List.mem_cons_of_mem _ hc', he, hl⟩
      | ok es => rw [hrec] at h; simp at h

theorem choiceEdges_has_err (m : List (Int × Nat × DLineStripped)) (idx : Nat)
    (lid : Int) (cs : List Choice)
    (h : ∃ c ∈ cs, lookupId m c.next = none) :
    ∃ err, choiceEdges m idx lid cs = .error err := by
  induction cs with
  | nil => simp at h
  | cons c cs ih =>
    rw [choiceEdges]
    cases hlk : lookupId m c.next with
    | none => exact ⟨_, rfl⟩
    | some p =>
      have h' : ∃ c ∈ cs, lookupId m c.next = none := by
        rcases h with ⟨c', hc', hl⟩
        rcases List.mem_cons.mp hc' with rfl | hcc
        · rw [hlk] at hl; cases hl
        · exact ⟨c', hcc, hl⟩
      obtain ⟨err, herr⟩ := ih h'
      rw [herr]
      exact ⟨err, rfl⟩

theorem entryEdges_src (m : List (Int × Nat × DLineStripped))
    (e : Int × Nat × DLineStripped) (es : List (Nat × Nat))
    (h : entryEdges m e = .ok es) : ∀ p ∈ es, p.1 = e.2.1 := by
  unfold entryEdges at h
  split at h
  · split at h
    · simp only [Except.ok.injEq] at h
      intro p hp
      rw [← h] at hp
      simp only [List.mem_singleton] at hp
      rw [hp]
    · simp at h
  · split at h
    · rename_i cs hcs
      obtain ⟨h1, _⟩ := choiceEdges_ok m e.2.1 e.2.2.id cs es h
      intro p hp
      rw [h1] at hp
      rcases List.mem_map.mp hp with ⟨c, _, hc⟩
      rw [← hc]
    · simp only [Except.ok.injEq] at h
      intro p hp
      rw [← h] at hp
      simp at hp

theorem entryEdges_next (m : List (Int × Nat × DLineStripped))
    (e : Int × Nat × DLineStripped) (nid : Int) (es : List (Nat × Nat))
    (hn : e.2.2.next = some nid) (h : entryEdges m e = .ok es) :
    ∃ p, lookupId m nid = some p ∧ es = [(e.2.1, p.1)] := by
  unfold entryEdges at h
  rw [hn] at h
  simp only at h
  cases hlk : lookupId m nid with
  | none => rw [hlk] at h; simp at h
  | some p =>
    rw [hlk] at h
    simp only [Except.ok.injEq] at h
    exact ⟨p, rfl, h.symm⟩

theorem entryEdges_choices (m : List (Int × Nat × DLineStripped))
    (e : Int × Nat × DLineStripped) (cs : List Choice) (es : List (Nat × Nat))
    (hn : e.2.2.next = none) (hc : e.2.2.choices = some cs)
    (h : entryEdges m e = .ok es) :
    es = cs.map (fun _ => (e.2.1, e.2.1)) := by
  unfold entryEdges at h
  rw [hn] at h
  simp only at h
  rw [hc] at h
  simp only at h
  exact (choiceEdges_ok m e.2.1 e.2.2.id cs es h).1

theorem entryEdges_err (m : List (Int × Nat × DLineStripped))
    (e : Int × Nat × DLineStripped) (err : ConversationError)
    (h : entryEdges m e = .error err) :
    ∃ t, err = .NextLineNotFound e.2.2.id t ∧
      ((e.2.2.next = some t ∧ lookupId m t = none) ∨
       (e.2.2.next = none ∧ ∃ c ∈ e.2.2.choices.getD [], c.next = t ∧
          lookupId m t = none)) := by
  unfold entryEdges at h
  split at h
  · rename_i nid hnid
    split at h
    · simp at h
    · rename_i hlk
      simp only [Except.error.injEq] at h
      exact ⟨nid, h.symm, Or.inl ⟨hnid, hlk⟩⟩
  · rename_i hnid
    split at h
    · rename_i cs hcs
      obtain ⟨c, hc, he, hl⟩ := choiceEdges_err m e.2.1 e.2.2.id cs err h
      refine ⟨c.next, he, Or.inr ⟨hnid, c, ?_, rfl, hl⟩⟩
      rw [hcs]
      exact hc
    · simp at h

theorem entryEdges_err_of_dangling (m : List (Int × Nat × DLineStripped))
    (e : Int × Nat × DLineStripped) (h : activeDangling m e.2.2) :
    ∃ err, entryEdges m e = .error err := by
  unfold entryEdges
  split
  · rename_i nid hnid
    rcases h with ⟨n, hn, hl⟩ | ⟨hn, _, _, _⟩
    · rw [hnid] at hn
      simp only [Option.some_inj] at hn
      rw [← hn] at hl
      rw [hl]
      exact ⟨_, rfl⟩
    · rw [hnid] at hn
      cases hn
  · rename_i hnid
    rcases h with ⟨n, hn, hl⟩ | ⟨hn, c, hc, hl⟩
    · rw [hnid] at hn
      cases hn
    · split
      · rename_i cs hcs
        rw [hcs] at hc
        simp only [Option.getD_some] at hc
        exact choiceEdges_has_err m e.2.1 e.2.2.id cs ⟨c, hc, hl⟩
      · rename_i hcs
        rw [hcs] at hc
        simp at hc

theorem entryEdges_ok_of_not_dangling (m : List (Int × Nat × DLineStripped))
    (e : Int × Nat × DLineStripped) (h : ¬ activeDangling m e.2.2) :
    ∃ es, entryEdges m e = .ok es := by
  unfold entryEdges
  split
  · rename_i nid hnid
    cases hlk : lookupId m nid with
    | none => exact absurd (Or.inl ⟨nid, hnid, hlk⟩) h
    | some p => exact ⟨_, rfl⟩
  · rename_i hnid
    split
    · rename_i cs hcs
      have hall : ∀ c ∈ cs, (lookupId m c.next).isSome := by
        intro c hc
        rw [Option.isSome_iff_ne_none]
        intro hnone
        refine h (Or.inr ⟨hnid, c, ?_, hnone⟩)
        rw [hcs]
        exact hc
      exact ⟨_, choiceEdges_complete m e.2.1 e.2.2.id cs hall⟩
    · exact ⟨[], rfl⟩

theorem addEdges_src (m : List (Int × Nat × DLineStripped)) :
    ∀ (entries : List (Int × Nat × DLineStripped)) (es : List (Nat × Nat)),
    addEdges m entries = .ok es →
    ∀ p ∈ es, ∃ e ∈ entries, p.1 = e.2.1 := by
  intro entries
  induction entries with
  | nil =>
    intro es h p hp
    simp only [addEdges, Except.ok.injEq] at h
    rw [← h] at hp
    simp at hp
  | cons e rest ih =>
    intro es h p hp
    rw [addEdges] at h
    cases h1 : entryEdges m e with
    | error err => rw [h1] at h; simp at h
    | ok es1 =>
      rw [h1] at h
      simp only at h
      cases h2 : addEdges m rest with
      | error err => rw [h2] at h; simp at h
      | ok es2 =>
        rw [h2] at h
        simp only [Except.ok.injEq] at h
        rw [← h] at hp
        rcases List.mem_append.mp hp with hp1 | hp2
        · exact ⟨e, List.mem_cons_self _ _, entryEdges_src m e es1 h1 p hp1⟩
        · obtain ⟨e', he', hq⟩ := ih es2 h2 p hp2
          exact ⟨e', List.mem_cons_of_mem _ he', hq⟩

/-- In a successful edge phase with distinct node indices, the edges whose
source is `e`'s node are exactly the edges `e` contributes, in order. -/
theorem addEdges_filter (m : List (Int × Nat × DLineStripped)) :
    ∀ (entries : List (Int × Nat × DLineStripped)) (es : List (Nat × Nat))
      (e : Int × Nat × DLineStripped),
    addEdges m entries = .ok es → e ∈ entries →
    ((entries.map (fun x => x.2.1)).Nodup) →
    ∃ esE, entryEdges m e = .ok esE ∧ es.filter (fun p => p.1 == e.2.1) = esE := by
  intro entries
  induction entries with
  | nil => intro es e h he _; simp at he
  | cons e0 rest ih =>
    intro es e h he hnodup
    rw [List.map_cons, List.nodup_cons] at hnodup
    rw [addEdges] at h
    cases h1 : entryEdges m e0 with
    | error err => rw [h1] at h; simp at h
    | ok es1 =>
      rw [h1] at h
      simp only at h
      cases h2 : addEdges m rest with
      | error err => rw [h2] at h; simp at h
      | ok es2 =>
        rw [h2] at h
        simp only [Except.ok.injEq] at h
        rw [← h, List.filter_append]
        rcases List.mem_cons.mp he with rfl | hmem
        · refine ⟨es1, h1, ?_⟩
          have hf1 : es1.filter (fun p => p.1 == e.2.1) = es1 := by
            apply List.filter_eq_self.mpr
            intro p hp
            have := entryEdges_src m e es1 h1 p hp
            simp [this]
          have hf2 : es2.filter (fun p => p.1 == e.2.1) = [] := by
            apply List.filter_eq_nil_iff.mpr
            intro p hp
            obtain ⟨e', he', hq⟩ := addEdges_src m rest es2 h2 p hp
            have hne : e'.2.1 ≠ e.2.1 := by
              intro hcontra
              exact hnodup.1 (List.mem_map.mpr ⟨e', he', hcontra⟩)
            simp [hq, hne]
          rw [hf1, hf2, List.append_nil]
        · obtain ⟨esE, hE, hfE⟩ := ih es2 e h2 hmem hnodup.2
          refine ⟨esE, hE, ?_⟩
          have hf1 : es1.filter (fun p => p.1 == e.2.1) = [] := by
            apply List.filter_eq_nil_iff.mpr
            intro p hp
            have hsrc := entryEdges_src m e0 es1 h1 p hp
            have hne : e0.2.1 ≠ e.2.1 := by
              intro hcontra
              exact hnodup.1 (List.mem_map.mpr ⟨e, hmem, hcontra.symm⟩)
            simp [hsrc, hne]
          rw [hf1, hfE]
          simp

theorem addEdges_complete (m : List (Int × Nat × DLineStripped)) :
    ∀ (entries : List (Int × Nat × DLineStripped)),
    (∀ e ∈ entries, ¬ activeDangling m e.2.2) →
    ∃ es, addEdges m entries = .ok es := by
  intro entries
  induction entries with
  | nil => exact fun _ => ⟨[], rfl⟩
  | cons e rest ih =>
    intro h
    obtain ⟨es1, h1⟩ := entryEdges_ok_of_not_dangling m e (h e (List.mem_cons_self _ _))
    obtain ⟨es2, h2⟩ := ih (fun x hx => h x (List.mem_cons_of_mem _ hx))
    refine ⟨es1 ++ es2, ?_⟩
    rw [addEdges, h1, h2]

/-- If some entry holds a dangling active reference, the edge phase fails
with `NextLineNotFound` naming some entry's line id and dangling target. -/
theorem addEdges_dangling (m : List (Int × Nat × DLineStripped)) :
    ∀ (entries : List (Int × Nat × DLineStripped)),
    (∃ e ∈ entries, activeDangling m e.2.2) →
    ∃ e ∈ entries, ∃ t,
      addEdges m entries = .error (.NextLineNotFound e.2.2.id t) ∧
      ((e.2.2.next = some t ∧ lookupId m t = none) ∨
       (e.2.2.next = none ∧ ∃ c ∈ e.2.2.choices.getD [], c.next = t ∧
          lookupId m t = none)) := by
  intro entries
  induction entries with
  | nil => intro h; simp at h
  | cons e0 rest ih =>
    intro h
    cases h1 : entryEdges m e0 with
    | error err =>
      obtain ⟨t, he, hcond⟩ := entryEdges_err m e0 err h1
      refine ⟨e0, List.mem_cons_self _ _, t, ?_, hcond⟩
      rw [addEdges, h1, he]
    | ok es1 =>
      have hrest : ∃ e ∈ rest, activeDangling m e.2.2 := by
        rcases h with ⟨e', he', hd⟩
        rcases List.mem_cons.mp he' with rfl | hmem
        · obtain ⟨err, herr⟩ := entryEdges_err_of_dangling m e' hd
          rw [herr] at h1
          exact Except.noConfusion h1
        · exact ⟨e', hmem, hd⟩
      obtain ⟨e, hmem, t, herr, hcond⟩ := ih hrest
      refine ⟨e, List.mem_cons_of_mem _ hmem, t, ?_, hcond⟩
      rw [addEdges, h1, herr]

/-! ### Evaluation lemmas for `Conversation.new` -/

theorem new_eq_error_noLines (talk : RawTalk) (hemp : talk.lines.isEmpty = true) :
    Conversation.new talk = some (.error .NoLines) := by
  unfold Conversation.new
  rw [hemp]
  simp

theorem new_eq_error_addNodes (talk : RawTalk) (e : ConversationError)
    (hemp : talk.lines.isEmpty = false)
    (han : addNodes talk.talkers talk.lines ⟨none, [], []⟩ = .error e) :
    Conversation.new talk = some (.error e) := by
  unfold Conversation.new
  rw [hemp, han]
  simp

theorem new_eq_error_noStart (talk : RawTalk) (st : NodePhase)
    (hemp : talk.lines.isEmpty = false)
    (han : addNodes talk.talkers talk.lines ⟨none, [], []⟩ = .ok st)
    (hfl : st.firstLine = none) :
    Conversation.new talk = some (.error .NoStartingDialogue) := by
  unfold Conversation.new
  rw [hemp, han]
  simp [hfl]

theorem new_eq_error_addEdges (talk : RawTalk) (st : NodePhase) (idx : Nat)
    (e : ConversationError) (hemp : talk.lines.isEmpty = false)
    (han : addNodes talk.talkers talk.lines ⟨none, [], []⟩ = .ok st)
    (hfl : st.firstLine = some idx)
    (hae : addEdges st.dmap st.dmap = .error e) :
    Conversation.new talk = some (.error e) := by
  unfold Conversation.new
  rw [hemp, han]
  simp [hfl, hae]

theorem new_eq_ok (talk : RawTalk) (st : NodePhase) (idx : Nat)
    (edges : List (Nat × Nat)) (hemp : talk.lines.isEmpty = false)
    (han : addNodes talk.talkers talk.lines ⟨none, [], []⟩ = .ok st)
    (hfl : st.firstLine = some idx)
    (hae : addEdges st.dmap st.dmap = .ok edges) :
    Conversation.new talk = some (.ok ⟨st.nodes, edges, idx⟩) := by
  unfold Conversation.new
  rw [hemp, han]
  simp [hfl, hae]

/-! ### Top-level characterization of compile -/

/-- A successful compile determines the graph from the lines: one node per
line in order, nodup ids, the cursor at the unique start line, and the edge
phase run on the insertion-order id map. -/
theorem new_ok (talk : RawTalk) (c : Conversation)
    (h : Conversation.new talk = some (.ok c)) :
    c.nodes = talk.lines.map (nodeOf talk.talkers)
    ∧ (talk.lines.map DialogueLine.id).Nodup
    ∧ countStart talk.lines ≤ 1
    ∧ findStartIdx 0 talk.lines = some c.current
    ∧ addEdges (dmapOf 0 talk.lines) (dmapOf 0 talk.lines) = .ok c.edges := by
  unfold Conversation.new at h
  by_cases hemp : talk.lines.isEmpty
  · rw [if_pos hemp] at h
    simp at h
  · rw [if_neg hemp] at h
    cases han : addNodes talk.talkers talk.lines ⟨none, [], []⟩ with
    | error e => rw [han] at h; simp at h
    | ok st =>
      rw [han] at h
      simp only at h
      obtain ⟨hnodes, hdmap, _, hnone, hnodup, _⟩ :=
        addNodes_ok talk.talkers talk.lines ⟨none, [], []⟩ st han
      simp only [List.nil_append, List.length_nil] at hnodes hdmap
      obtain ⟨hcount, hfirst⟩ := hnone rfl
      cases hfl : st.firstLine with
      | none => rw [hfl] at h; simp at h
      | some idx =>
        rw [hfl] at h
        simp only [Option.isNone_some, Bool.false_eq_true, if_false] at h
        cases hae : addEdges st.dmap st.dmap with
        | error e => rw [hae] at h; simp at h
        | ok edges =>
          rw [hae] at h
          simp only [Option.some_inj, Except.ok.injEq] at h
          rw [← h]
          rw [hfl] at hfirst
          rw [hdmap] at hae
          exact ⟨hnodes, hnodup, hcount, hfirst.symm, hae⟩

/-- Compile succeeds on any script meeting the documented validity
conditions.  Note that nothing here constrains talker names to be unique:
duplicate talker names never block compilation. -/
theorem new_complete (talk : RawTalk)
    (hne : talk.lines ≠ [])
    (htalk : talkersOk talk.talkers talk.lines)
    (hids : (talk.lines.map DialogueLine.id).Nodup)
    (hstart : countStart talk.lines = 1)
    (hrefs : ∀ l ∈ talk.lines,
      (∀ n, l.next = some n → idxOfId talk.lines n ≠ none) ∧
      (l.next = none → ∀ ch ∈ l.choices.getD [], idxOfId talk.lines ch.next ≠ none)) :
    ∃ c, Conversation.new talk = some (.ok c) := by
  obtain ⟨st, han⟩ := addNodes_complete talk.talkers talk.lines ⟨none, [], []⟩ htalk hids
    (by intro l _; rfl) (Or.inr ⟨rfl, by omega⟩)
  obtain ⟨hnodes, hdmap, _, hnone, _, _⟩ :=
    addNodes_ok talk.talkers talk.lines ⟨none, [], []⟩ st han
  simp only [List.nil_append, List.length_nil] at hnodes hdmap
  have hfirst : st.firstLine = findStartIdx 0 talk.lines := (hnone rfl).2
  have hfs : (findStartIdx 0 talk.lines).isSome :=
    findStartIdx_isSome_of_pos 0 talk.lines (by omega)
  have hnd : ∀ e ∈ dmapOf 0 talk.lines, ¬ activeDangling (dmapOf 0 talk.lines) e.2.2 := by
    intro e he hd
    obtain ⟨k, l, hget, rfl⟩ := mem_dmapOf 0 talk.lines e he
    have hl := hrefs l (List.getElem?_mem hget)
    rcases hd with ⟨n, hn, hlk⟩ | ⟨hn, ch, hch, hlk⟩
    · exact hl.1 n hn ((lookupId_dmapOf_eq_none_iff talk.lines n).mp hlk)
    · exact hl.2 hn ch hch ((lookupId_dmapOf_eq_none_iff talk.lines ch.next).mp hlk)
  obtain ⟨edges, hae⟩ := addEdges_complete (dmapOf 0 talk.lines) (dmapOf 0 talk.lines) hnd
  cases hfl : st.firstLine with
  | none =>
    rw [hfl] at hfirst
    rw [← hfirst] at hfs
    simp at hfs
  | some idx =>
    refine ⟨⟨st.nodes, edges, idx⟩, ?_⟩
    exact new_eq_ok talk st idx edges (List.isEmpty_eq_false.mpr hne) han hfl
      (by rw [hdmap]; exact hae)

theorem lookupId_dmapOf_some (ls : List DialogueLine) (i : Int) (p : Nat × DLineStripped)
    (h : lookupId (dmapOf 0 ls) i = some p) : idxOfId ls i = some p.1 := by
  rw [lookupId_dmapOf] at h
  cases hj : idxOfId ls i with
  | none => rw [hj] at h; simp at h
  | some j =>
    rw [hj] at h
    simp only [Option.some_bind, Option.map_eq_some'] at h
    obtain ⟨l, _, hp⟩ := h
    rw [← hp]
    simp

/-! ### The claims -/

/-- Claim C1: in a successfully compiled script, a line carrying both a
`next` id and a non-empty `choices` list contributes exactly one outgoing
edge, from its node to the node of the `next` target (a self-loop when the
target is its own id), and no edges for its choices. -/
theorem claim_C1 (talk : RawTalk) (c : Conversation)
    (k : Nat) (l : DialogueLine) (n : Int) (cs : List Choice)
    (hok : Conversation.new talk = some (.ok c))
    (hget : talk.lines[k]? = some l)
    (hnext : l.next = some n)
    (hch : l.choices = some cs) (hne : cs ≠ []) :
    ∃ j, idxOfId talk.lines n = some j
    ∧ c.edges.filter (fun p => p.1 == k) = [(k, j)]
    ∧ (n = l.id → j = k) := by
  obtain ⟨hnodes, hnodup, hcount, hfind, hedges⟩ := new_ok talk c hok
  have hmem : (l.id, 0 + k, strip l) ∈ dmapOf 0 talk.lines :=
    dmapOf_mem_of_getElem? 0 talk.lines k l hget
  rw [Nat.zero_add] at hmem
  obtain ⟨esE, hE, hfilter⟩ := addEdges_filter (dmapOf 0 talk.lines) (dmapOf 0 talk.lines)
    c.edges (l.id, k, strip l) hedges hmem (dmapOf_idxs_nodup 0 talk.lines)
  obtain ⟨p, hlk, hesE⟩ := entryEdges_next (dmapOf 0 talk.lines) (l.id, k, strip l) n esE
    hnext hE
  have hj : idxOfId talk.lines n = some p.1 := lookupId_dmapOf_some talk.lines n p hlk
  refine ⟨p.1, hj, ?_, ?_⟩
  · exact hfilter.trans hesE
  · intro hnl
    rw [hnl] at hj
    have hk := idxOfId_of_getElem? talk.lines hnodup k l hget
    rw [hk] at hj
    exact (Option.some_inj.mp hj).symm

/-- The branching script of the Rust test `new_with_branching`: one start
line with two choices to lines 2 and 3, line 2 linked to line 3 by `next`. -/
def branchingTalk : RawTalk :=
  ⟨[], [⟨1, "Hello", none, some [⟨"Choice 1", 2⟩, ⟨"Choice 2", 3⟩], none, some true, none⟩,
        ⟨2, "Hello", none, none, some 3, none, none⟩,
        ⟨3, "Hello", none, none, none, none, none⟩]⟩

/-- Claim C2: in a successfully compiled script, a line with choices and no
`next` contributes, for each choice, a self-loop edge back to its own node
(never an edge to the choice target); in particular the three-line branching
script compiles to 3 nodes and 3 edges. -/
theorem claim_C2 :
    (∀ (talk : RawTalk) (c : Conversation) (k : Nat) (l : DialogueLine) (cs : List Choice),
      Conversation.new talk = some (.ok c) →
      talk.lines[k]? = some l →
      l.next = none → l.choices = some cs →
      (∀ ch ∈ cs, (idxOfId talk.lines ch.next).isSome) →
      c.edges.filter (fun p => p.1 == k) = cs.map (fun _ => (k, k)))
    ∧ (∃ c, Conversation.new branchingTalk = some (.ok c)
        ∧ c.nodes.length = 3 ∧ c.edges.length = 3) := by
  constructor
  · intro talk c k l cs hok hget hnext hch _
    obtain ⟨_, _, _, _, hedges⟩ := new_ok talk c hok
    have hmem : (l.id, 0 + k, strip l) ∈ dmapOf 0 talk.lines :=
      dmapOf_mem_of_getElem? 0 talk.lines k l hget
    rw [Nat.zero_add] at hmem
    obtain ⟨esE, hE, hfilter⟩ := addEdges_filter (dmapOf 0 talk.lines) (dmapOf 0 talk.lines)
      c.edges (l.id, k, strip l) hedges hmem (dmapOf_idxs_nodup 0 talk.lines)
    have hshape := entryEdges_choices (dmapOf 0 talk.lines) (l.id, k, strip l) cs esE
      hnext hch hE
    exact hfilter.trans hshape
  · exact ⟨⟨[⟨"Hello", none, some [⟨"Choice 1", 2⟩, ⟨"Choice 2", 3⟩]⟩,
      ⟨"Hello", none, none⟩, ⟨"Hello", none, none⟩], [(0, 0), (0, 0), (1, 2)], 0⟩,
      rfl, rfl, rfl⟩

/-- Claim C3 counterexample: the empty script has zero lines marked `start`,
yet compile fails with `NoLines`, not `NoStartingDialogue`. -/
theorem claim_C3_counterexample :
    countStart (RawTalk.mk [] []).lines = 0
    ∧ Conversation.new ⟨[], []⟩ ≠ some (.error .NoStartingDialogue) := by
  refine ⟨rfl, ?_⟩
  intro hcontra
  have heval : Conversation.new ⟨[], []⟩ = some (.error .NoLines) := rfl
  rw [heval] at hcontra
  simp at hcontra

/-- Claim C3 (amended): for every script whose line list is non-empty, whose
talker references resolve and whose ids are distinct, zero `start` lines
compile to `NoStartingDialogue` and two or more to
`MultipleStartingDialogues`. -/
theorem claim_C3 (talk : RawTalk)
    (hne : talk.lines ≠ [])
    (htalk : ∀ l ∈ talk.lines, ∀ n, l.talker = some n → ∃ t ∈ talk.talkers, t.name = n)
    (hids : (talk.lines.map DialogueLine.id).Nodup) :
    (countStart talk.lines = 0 →
      Conversation.new talk = some (.error .NoStartingDialogue))
    ∧ (2 ≤ countStart talk.lines →
      Conversation.new talk = some (.error .MultipleStartingDialogues)) := by
  have htalk' : talkersOk talk.talkers talk.lines := by
    intro l hl n hn
    rw [talkerLookup_isSome_iff]
    exact htalk l hl n hn
  constructor
  · intro hzero
    obtain ⟨st, han⟩ := addNodes_complete talk.talkers talk.lines ⟨none, [], []⟩ htalk'
      hids (fun l _ => rfl) (Or.inr ⟨rfl, by omega⟩)
    obtain ⟨_, _, _, hnone, _, _⟩ :=
      addNodes_ok talk.talkers talk.lines ⟨none, [], []⟩ st han
    have hfirst : st.firstLine = findStartIdx 0 talk.lines := (hnone rfl).2
    have hfnone : findStartIdx 0 talk.lines = none :=
      (findStartIdx_eq_none_iff 0 talk.lines).mpr hzero
    exact new_eq_error_noStart talk st (List.isEmpty_eq_false.mpr hne) han
      (hfirst.trans hfnone)
  · intro hmulti
    have herr := addNodes_multiStart talk.talkers talk.lines ⟨none, [], []⟩ htalk'
      hids (fun l _ => rfl) (Or.inr ⟨rfl, hmulti⟩)
    exact new_eq_error_addNodes talk _ (List.isEmpty_eq_false.mpr hne) herr

/-- Claim C4 counterexample: a script whose only line has a choice with a
dangling target 99 but also `next = 1`: the dangling choice reference is
never resolved (`next` wins) and compile SUCCEEDS instead of failing with
`NextLineNotFound`. -/
theorem claim_C4_counterexample :
    (∃ l ∈ (RawTalk.mk []
        [⟨1, "Hello", none, some [⟨"c", 99⟩], some 1, some true, none⟩]).lines,
      ∃ ch ∈ l.choices.getD [],
        idxOfId (RawTalk.mk []
          [⟨1, "Hello", none, some [⟨"c", 99⟩], some 1, some true, none⟩]).lines
          ch.next = none)
    ∧ Conversation.new
        ⟨[], [⟨1, "Hello", none, some [⟨"c", 99⟩], some 1, some true, none⟩]⟩ =
      some (.ok ⟨[⟨"Hello", none, some [⟨"c", 99⟩]⟩], [(0, 0)], 0⟩) := by
  constructor
  · exact ⟨⟨1, "Hello", none, some [⟨"c", 99⟩], some 1, some true, none⟩,
      by simp, ⟨"c", 99⟩, by simp, rfl⟩
  · rfl

/-- Claim C4 (amended): for every otherwise-valid script (non-empty,
resolving talkers, distinct ids, exactly one start), if some line's own
`next` is dangling, or some line without `next` has a choice with a dangling
target, then compile fails with `NextLineNotFound (s, t)` where `s` is such
a line's id and `t` its dangling active reference. -/
theorem claim_C4 (talk : RawTalk)
    (hne : talk.lines ≠ [])
    (htalk : ∀ l ∈ talk.lines, ∀ n, l.talker = some n → ∃ t ∈ talk.talkers, t.name = n)
    (hids : (talk.lines.map DialogueLine.id).Nodup)
    (hstart : countStart talk.lines = 1)
    (hdangle : ∃ l ∈ talk.lines,
      (∃ n, l.next = some n ∧ idxOfId talk.lines n = none) ∨
      (l.next = none ∧ ∃ ch ∈ l.choices.getD [], idxOfId talk.lines ch.next = none)) :
    ∃ s t, Conversation.new talk = some (.error (.NextLineNotFound s t))
    ∧ ∃ l ∈ talk.lines, l.id = s ∧
      ((l.next = some t ∧ idxOfId talk.lines t = none) ∨
       (l.next = none ∧ ∃ ch ∈ l.choices.getD [], ch.next = t ∧
          idxOfId talk.lines t = none)) := by
  have htalk' : talkersOk talk.talkers talk.lines := by
    intro l hl n hn
    rw [talkerLookup_isSome_iff]
    exact htalk l hl n hn
  obtain ⟨st, han⟩ := addNodes_complete talk.talkers talk.lines ⟨none, [], []⟩ htalk'
    hids (fun l _ => rfl) (Or.inr ⟨rfl, by omega⟩)
  obtain ⟨_, hdmap, _, hnone, _, _⟩ :=
    addNodes_ok talk.talkers talk.lines ⟨none, [], []⟩ st han
  simp only [List.nil_append] at hdmap
  have hfirst : st.firstLine = findStartIdx 0 talk.lines := (hnone rfl).2
  have hfs : (findStartIdx 0 talk.lines).isSome :=
    findStartIdx_isSome_of_pos 0 talk.lines (by omega)
  have hd : ∃ e ∈ dmapOf 0 talk.lines, activeDangling (dmapOf 0 talk.lines) e.2.2 := by
    obtain ⟨l, hl, hcase⟩ := hdangle
    obtain ⟨k, hk⟩ := List.mem_iff_getElem?.mp hl
    refine ⟨(l.id, 0 + k, strip l), dmapOf_mem_of_getElem? 0 talk.lines k l hk, ?_⟩
    rcases hcase with ⟨n, hn, hnn⟩ | ⟨hn, ch, hch, hnn⟩
    · exact Or.inl ⟨n, hn, (lookupId_dmapOf_eq_none_iff talk.lines n).mpr hnn⟩
    · exact Or.inr ⟨hn, ch, hch, (lookupId_dmapOf_eq_none_iff talk.lines ch.next).mpr hnn⟩
  obtain ⟨e, hemem, t, herr, hcond⟩ :=
    addEdges_dangling (dmapOf 0 talk.lines) (dmapOf 0 talk.lines) hd
  obtain ⟨k, l, hget, rfl⟩ := mem_dmapOf 0 talk.lines e hemem
  cases hfl : st.firstLine with
  | none =>
    rw [hfl] at hfirst
    rw [← hfirst] at hfs
    simp at hfs
  | some idx =>
    refine ⟨l.id, t, ?_, l, List.getElem?_mem hget, rfl, ?_⟩
    · exact new_eq_error_addEdges talk st idx _ (List.isEmpty_eq_false.mpr hne) han hfl
        (by rw [hdmap]; exact herr)
    · rcases hcond with ⟨hn, hlk⟩ | ⟨hn, ch, hch, hpt, hlk⟩
      · exact Or.inl ⟨hn, (lookupId_dmapOf_eq_none_iff talk.lines t).mp hlk⟩
      · exact Or.inr ⟨hn, ch, hch, hpt, (lookupId_dmapOf_eq_none_iff talk.lines t).mp hlk⟩

/-- Claim C5: a successful compile yields one node per authored line, the
cursor at the node of the unique `start` line, and `current_text` returning
that line's text. -/
theorem claim_C5 (talk : RawTalk) (c : Conversation)
    (h : Conversation.new talk = some (.ok c)) :
    c.nodes.length = talk.lines.length
    ∧ ∃ l, talk.lines[c.current]? = some l
      ∧ l.start = some true
      ∧ (∀ j l', talk.lines[j]? = some l' → l'.start = some true → j = c.current)
      ∧ c.current_text = some l.text := by
  obtain ⟨hnodes, _, hcount, hfind, _⟩ := new_ok talk c h
  obtain ⟨k, l, hj, hget, hstart⟩ := findStartIdx_some 0 talk.lines c.current hfind
  have hk : c.current = k := by omega
  refine ⟨by rw [hnodes]; simp, l, ?_, hstart, ?_, ?_⟩
  · rw [hk]
    exact hget
  · intro j l' hj' hs'
    rw [hk]
    exact countStart_unique talk.lines hcount j k l' l hj' hget hs' hstart
  · unfold Conversation.current_text
    rw [hnodes, hk, List.getElem?_map, hget]
    rfl

/-- Claim C6: the empty line list is rejected with `NoLines` before any
other validation — the talker list is entirely irrelevant. -/
theorem claim_C6 (ts : List Talker) :
    Conversation.new ⟨ts, []⟩ = some (.error .NoLines) := rfl

/-- Claim C7: compile never fails because two talkers share a name (the
success conditions below never mention talker-name uniqueness), and a line
referencing a duplicated name resolves to the LAST talker record with that
name. -/
theorem claim_C7 (talk : RawTalk)
    (hne : talk.lines ≠ [])
    (htalk : ∀ l ∈ talk.lines, ∀ n, l.talker = some n → ∃ t ∈ talk.talkers, t.name = n)
    (hids : (talk.lines.map DialogueLine.id).Nodup)
    (hstart : countStart talk.lines = 1)
    (hrefs : ∀ l ∈ talk.lines,
      (∀ n, l.next = some n → idxOfId talk.lines n ≠ none) ∧
      (l.next = none → ∀ ch ∈ l.choices.getD [], idxOfId talk.lines ch.next ≠ none)) :
    ∃ c, Conversation.new talk = some (.ok c)
    ∧ ∀ (k : Nat) (l : DialogueLine) (n : String),
        talk.lines[k]? = some l → l.talker = some n →
        c.nodes[k]? = some (nodeOf talk.talkers l)
        ∧ (nodeOf talk.talkers l).talker
            = (talk.talkers.filter (fun t => t.name == n)).getLast? := by
  have htalk' : talkersOk talk.talkers talk.lines := by
    intro l hl n hn
    rw [talkerLookup_isSome_iff]
    exact htalk l hl n hn
  obtain ⟨c, hc⟩ := new_complete talk hne htalk' hids hstart hrefs
  obtain ⟨hnodes, _, _, _, _⟩ := new_ok talk c hc
  refine ⟨c, hc, ?_⟩
  intro k l n hget hn
  constructor
  · rw [hnodes, List.getElem?_map, hget]
    rfl
  · show l.talker.bind (talkerLookup talk.talkers) = _
    rw [hn, Option.some_bind]
    exact talkerLookup_eq_getLast talk.talkers n

/-- Claim C8: the per-line checks run talker lookup, then the start flag,
then the duplicate-id check, so a line that both repeats an earlier id and
is a second `start` line fails with `MultipleStartingDialogues`, not
`RepeatedId`. -/
theorem claim_C8 (ts : List Talker) (pre : List DialogueLine)
    (l : DialogueLine) (rest : List DialogueLine)
    (htalkpre : ∀ p ∈ pre, ∀ n, p.talker = some n → ∃ t ∈ ts, t.name = n)
    (htalkl : ∀ n, l.talker = some n → ∃ t ∈ ts, t.name = n)
    (hids : (pre.map DialogueLine.id).Nodup)
    (hstartpre : countStart pre = 1)
    (hlstart : l.start = some true)
    (hdup : l.id ∈ pre.map DialogueLine.id) :
    Conversation.new ⟨ts, pre ++ l :: rest⟩ =
      some (.error .MultipleStartingDialogues) := by
  have htalk' : talkersOk ts pre := by
    intro p hp n hn
    rw [talkerLookup_isSome_iff]
    exact htalkpre p hp n hn
  obtain ⟨st, han⟩ := addNodes_complete ts pre ⟨none, [], []⟩ htalk' hids
    (fun _ _ => rfl) (Or.inr ⟨rfl, by omega⟩)
  obtain ⟨_, _, _, hnone, _, _⟩ := addNodes_ok ts pre ⟨none, [], []⟩ st han
  have hfirst : st.firstLine = findStartIdx 0 pre := (hnone rfl).2
  have hfs : (findStartIdx 0 pre).isSome := findStartIdx_isSome_of_pos 0 pre (by omega)
  have hsome : st.firstLine.isSome := by rw [hfirst]; exact hfs
  have hwhole : addNodes ts (pre ++ l :: rest) ⟨none, [], []⟩ =
      .error .MultipleStartingDialogues := by
    rw [addNodes_append ts pre (l :: rest) ⟨none, [], []⟩, han]
    simp only
    rw [addNodes]
    rw [resolveTalker_complete ts l (by
      intro n hn
      rw [talkerLookup_isSome_iff]
      exact htalkl n hn)]
    simp only
    cases hflv : st.firstLine with
    | none => rw [hflv] at hsome; simp at hsome
    | some i => simp [checkStart, hlstart]
  exact new_eq_error_addNodes ⟨ts, pre ++ l :: rest⟩ _ (by simp) hwhole

/-- Claim C9: compile is deterministic — equal scripts (same talkers, same
lines in the same order) always give the same result, error payloads
included. -/
theorem claim_C9 (t1 t2 : RawTalk) (h : t1 = t2) :
    Conversation.new t1 = Conversation.new t2 := by rw [h]

/-- Claim C10: compile is total: every input yields `Ok` or an error, and
the final `unwrap` of the start index never panics (it is guarded by the
`NoStartingDialogue` early return). -/
theorem claim_C10 (talk : RawTalk) : (Conversation.new talk).isSome := by
  unfold Conversation.new
  split
  · rfl
  · cases han : addNodes talk.talkers talk.lines ⟨none, [], []⟩ with
    | error e => rfl
    | ok st =>
      simp only
      by_cases hfl : st.firstLine.isNone
      · rw [if_pos hfl]
        rfl
      · rw [if_neg hfl]
        cases hae : addEdges st.dmap st.dmap with
        | error e => rfl
        | ok edges =>
          cases hflv : st.firstLine with
          | none => rw [hflv] at hfl; simp at hfl
          | some idx => rfl

/-! ### Witnesses -/

theorem claim_C1_witness :
    ∃ j, idxOfId (RawTalk.mk []
        [⟨1, "Hello", none, some [⟨"c", 99⟩], some 1, some true, none⟩]).lines 1 = some j
    ∧ (Conversation.mk [⟨"Hello", none, some [⟨"c", 99⟩]⟩] [(0, 0)] 0).edges.filter
        (fun p => p.1 == 0) = [(0, j)]
    ∧ (1 = (⟨1, "Hello", none, some [⟨"c", 99⟩], some 1, some true, none⟩ :
        DialogueLine).id → j = 0) :=
  claim_C1 ⟨[], [⟨1, "Hello", none, some [⟨"c", 99⟩], some 1, some true, none⟩]⟩
    ⟨[⟨"Hello", none, some [⟨"c", 99⟩]⟩], [(0, 0)], 0⟩ 0
    ⟨1, "Hello", none, some [⟨"c", 99⟩], some 1, some true, none⟩ 1 [⟨"c", 99⟩]
    rfl rfl rfl rfl (by simp)

theorem claim_C2_witness :
    (Conversation.mk [⟨"Hello", none, some [⟨"Choice 1", 2⟩, ⟨"Choice 2", 3⟩]⟩,
        ⟨"Hello", none, none⟩, ⟨"Hello", none, none⟩] [(0, 0), (0, 0), (1, 2)] 0).edges.filter
      (fun p => p.1 == 0)
      = ([⟨"Choice 1", 2⟩, ⟨"Choice 2", 3⟩] : List Choice).map (fun _ => (0, 0)) :=
  claim_C2.1 branchingTalk
    ⟨[⟨"Hello", none, some [⟨"Choice 1", 2⟩, ⟨"Choice 2", 3⟩]⟩,
      ⟨"Hello", none, none⟩, ⟨"Hello", none, none⟩], [(0, 0), (0, 0), (1, 2)], 0⟩ 0
    ⟨1, "Hello", none, some [⟨"Choice 1", 2⟩, ⟨"Choice 2", 3⟩], none, some true, none⟩
    [⟨"Choice 1", 2⟩, ⟨"Choice 2", 3⟩] rfl rfl rfl rfl (by decide)

theorem claim_C3_witness :
    Conversation.new ⟨[], [⟨1, "Hello", none, none, none, none, none⟩]⟩ =
      some (.error .NoStartingDialogue) :=
  (claim_C3 ⟨[], [⟨1, "Hello", none, none, none, none, none⟩]⟩
    (by simp)
    (by
      intro l hl n hn
      simp only [List.mem_singleton] at hl
      subst hl
      simp at hn)
    (by simp)).1 rfl

theorem claim_C4_witness :
    ∃ s t, Conversation.new ⟨[], [⟨1, "Hello", none, none, some 2, some true, none⟩]⟩ =
      some (.error (.NextLineNotFound s t))
    ∧ ∃ l ∈ (RawTalk.mk [] [⟨1, "Hello", none, none, some 2, some true, none⟩]).lines,
        l.id = s ∧
      ((l.next = some t ∧ idxOfId (RawTalk.mk []
          [⟨1, "Hello", none, none, some 2, some true, none⟩]).lines t = none) ∨
       (l.next = none ∧ ∃ ch ∈ l.choices.getD [], ch.next = t ∧
          idxOfId (RawTalk.mk []
            [⟨1, "Hello", none, none, some 2, some true, none⟩]).lines t = none)) :=
  claim_C4 ⟨[], [⟨1, "Hello", none, none, some 2, some true, none⟩]⟩
    (by simp)
    (by
      intro l hl n hn
      simp only [List.mem_singleton] at hl
      subst hl
      simp at hn)
    (by simp)
    rfl
    ⟨⟨1, "Hello", none, none, some 2, some true, none⟩, by simp, Or.inl ⟨2, rfl, rfl⟩⟩

theorem claim_C5_witness :
    (Conversation.mk [⟨"Hello", none, none⟩] [] 0).nodes.length =
      (RawTalk.mk [] [⟨1, "Hello", none, none, none, some true, none⟩]).lines.length
    ∧ ∃ l, (RawTalk.mk [] [⟨1, "Hello", none, none, none, some true, none⟩]).lines[
        (Conversation.mk [⟨"Hello", none, none⟩] [] 0).current]? = some l
      ∧ l.start = some true
      ∧ (∀ j l', (RawTalk.mk []
          [⟨1, "Hello", none, none, none, some true, none⟩]).lines[j]? = some l' →
          l'.start = some true →
          j = (Conversation.mk [⟨"Hello", none, none⟩] [] 0).current)
      ∧ (Conversation.mk [⟨"Hello", none, none⟩] [] 0).current_text = some l.text :=
  claim_C5 ⟨[], [⟨1, "Hello", none, none, none, some true, none⟩]⟩
    ⟨[⟨"Hello", none, none⟩], [], 0⟩ rfl

theorem claim_C7_witness :
    ∃ c, Conversation.new ⟨[⟨"Bob", "a.png"⟩, ⟨"Bob", "b.png"⟩],
        [⟨1, "Hello", some "Bob", none, none, some true, none⟩]⟩ = some (.ok c)
    ∧ ∀ (k : Nat) (l : DialogueLine) (n : String),
        (RawTalk.mk [⟨"Bob", "a.png"⟩, ⟨"Bob", "b.png"⟩]
          [⟨1, "Hello", some "Bob", none, none, some true, none⟩]).lines[k]? = some l →
        l.talker = some n →
        c.nodes[k]? = some (nodeOf (RawTalk.mk [⟨"Bob", "a.png"⟩, ⟨"Bob", "b.png"⟩]
          [⟨1, "Hello", some "Bob", none, none, some true, none⟩]).talkers l)
        ∧ (nodeOf (RawTalk.mk [⟨"Bob", "a.png"⟩, ⟨"Bob", "b.png"⟩]
            [⟨1, "Hello", some "Bob", none, none, some true, none⟩]).talkers l).talker
          = ((RawTalk.mk [⟨"Bob", "a.png"⟩, ⟨"Bob", "b.png"⟩]
              [⟨1, "Hello", some "Bob", none, none, some true, none⟩]).talkers.filter
              (fun t => t.name == n)).getLast? :=
  claim_C7 ⟨[⟨"Bob", "a.png"⟩, ⟨"Bob", "b.png"⟩],
      [⟨1, "Hello", some "Bob", none, none, some true, none⟩]⟩
    (by simp)
    (by
      intro l hl n hn
      simp only [List.mem_singleton] at hl
      subst hl
      have hn' : "Bob" = n := by simpa using hn
      exact ⟨⟨"Bob", "b.png"⟩, by simp, hn'⟩)
    (by simp)
    rfl
    (by
      intro l hl
      simp only [List.mem_singleton] at hl
      subst hl
      constructor
      · intro n hn
        simp at hn
      · intro _ ch hch
        simp at hch)

theorem claim_C8_witness :
    Conversation.new ⟨[], [⟨1, "Hello", none, none, none, some true, none⟩] ++
        ⟨1, "Whatup", none, none, none, some true, none⟩ :: []⟩ =
      some (.error .MultipleStartingDialogues) :=
  claim_C8 [] [⟨1, "Hello", none, none, none, some true, none⟩]
    ⟨1, "Whatup", none, none, none, some true, none⟩ []
    (by
      intro p hp n hn
      simp only [List.mem_singleton] at hp
      subst hp
      simp at hn)
    (by
      intro n hn
      simp at hn)
    (by simp)
    rfl
    rfl
    (by simp)

theorem claim_C9_witness :
    Conversation.new ⟨[], []⟩ = Conversation.new ⟨[], []⟩ :=
  claim_C9 ⟨[], []⟩ ⟨[], []⟩ rfl

end Screenplay
